import Mathlib

/-!
Verification of the DocTracker ("Knowledge Stack") frontend logic:
visibility/eligibility checks, tag normalization, the manage-tags modal,
the save-document guard, the HTTP retry interceptor, the navigation path
tree, slug generation, and (modelled from the spec, as the backend is not
part of the repository) the tag synchronizer and collection hierarchy
manager.

Conventions: TypeScript optional/nullable fields become `Option`;
JavaScript truthiness on numbers/strings/optional values is made explicit
via the `jsTruthy*` helpers; handlers that fire HTTP requests are embedded
as pure functions returning the ordered list of requests they would issue.
-/

namespace DocTracker

/-- JS double-bang `!!x` on an optional boolean field. -/
def jsBool : Option Bool → Bool
  | some b => b
  | none => false

/-- JS truthiness of an optional numeric field (`undefined`, `null` and `0` are falsy). -/
def jsTruthyInt : Option Int → Bool
  | some n => n ≠ 0
  | none => false

/-- JS truthiness of an optional string field (`undefined`, `null` and `""` are falsy). -/
def jsTruthyStr : Option String → Bool
  | some s => s ≠ ""
  | none => false

/-! ## C1 — eligibility checks from CollectionsPage.tsx -/

/-- The fields of `SimpleDocument` (CollectionsPage.tsx) used by the eligibility check. -/
structure SimpleDocument where
  id : Int
  everyone : Option Bool
  departments : Option (List Int)

/-- The fields of `SimpleCollection` (CollectionsPage.tsx) used by the eligibility check. -/
structure SimpleCollection where
  id : Int
  everyone : Option Bool
  departments : Option (List Int)

/-- The fields of `CollectionDetail` (CollectionsPage.tsx) used by the eligibility check. -/
structure CollectionDetail where
  id : Int
  everyone : Option Bool
  departments : Option (List Int)

/-- `isDocEligibleForCollection` from CollectionsPage.tsx. -/
def isDocEligibleForCollection (doc : SimpleDocument) (col : Option CollectionDetail) : Bool :=
  match col with
  | none => true
  | some col =>
    let docEveryone := jsBool doc.everyone
    let colEveryone := jsBool col.everyone
    if colEveryone then true
    else if docEveryone then true
    else
      let docDepts := doc.departments.getD []
      let colDepts := col.departments.getD []
      if colDepts.length = 0 || docDepts.length = 0 then true
      else docDepts.any (fun i => colDepts.contains i)

/-- `isSubcollectionEligibleForCollection` from CollectionsPage.tsx. -/
def isSubcollectionEligibleForCollection (sub : SimpleCollection)
    (col : Option CollectionDetail) : Bool :=
  match col with
  | none => true
  | some col =>
    let subEveryone := jsBool sub.everyone
    let colEveryone := jsBool col.everyone
    if colEveryone then true
    else if subEveryone then true
    else
      let subDepts := sub.departments.getD []
      let colDepts := col.departments.getD []
      if colDepts.length = 0 || subDepts.length = 0 then true
      else subDepts.any (fun i => colDepts.contains i)

/-- The eligibility predicate exactly as the spec sentence words it: the parent's
everyone flag is true, or the child's is, or either department set is empty
(with a null/absent collection treated as eligible), or the sets intersect. -/
def eligibleSpec (childEveryone : Option Bool) (childDepts : Option (List Int))
    (col : Option CollectionDetail) : Prop :=
  match col with
  | none => True
  | some c =>
      c.everyone = some true ∨ childEveryone = some true ∨
      childDepts.getD [] = [] ∨ c.departments.getD [] = [] ∨
      ∃ i, i ∈ childDepts.getD [] ∧ i ∈ c.departments.getD []

theorem jsBool_eq_true_iff (o : Option Bool) : jsBool o = true ↔ o = some true := by
  cases o with
  | none => simp [jsBool]
  | some b => cases b <;> simp [jsBool]

theorem eligible_core_iff (ce : Option Bool) (cd : Option (List Int)) (c : CollectionDetail) :
    ((if jsBool c.everyone then true
      else if jsBool ce then true
      else if (c.departments.getD []).length = 0 || (cd.getD []).length = 0 then true
      else (cd.getD []).any (fun i => (c.departments.getD []).contains i)) = true) ↔
    (c.everyone = some true ∨ ce = some true ∨
      cd.getD [] = [] ∨ c.departments.getD [] = [] ∨
      ∃ i, i ∈ cd.getD [] ∧ i ∈ c.departments.getD []) := by
  by_cases h1 : c.everyone = some true
  · simp [jsBool, (jsBool_eq_true_iff c.everyone).mpr h1, h1]
  · have hcb : jsBool c.everyone = false := by
      cases h : jsBool c.everyone
      · rfl
      · exact absurd ((jsBool_eq_true_iff c.everyone).mp h) h1
    by_cases h2 : ce = some true
    · simp [jsBool, hcb, (jsBool_eq_true_iff ce).mpr h2, h2]
    · have heb : jsBool ce = false := by
        cases h : jsBool ce
        · rfl
        · exact absurd ((jsBool_eq_true_iff ce).mp h) h2
      simp only [hcb, heb, Bool.false_eq_true, if_false]
      by_cases h3 : c.departments.getD [] = []
      · simp [h3]
      · by_cases h4 : cd.getD [] = []
        · simp [h4]
        · have b3 : decide ((c.departments.getD []).length = 0) = false :=
            decide_eq_false (by simpa [List.length_eq_zero] using h3)
          have b4 : decide ((cd.getD []).length = 0) = false :=
            decide_eq_false (by simpa [List.length_eq_zero] using h4)
          simp [b3, b4, h1, h2, h3, h4, List.any_eq_true]

/-- Claim C1: both pickers' eligibility checks return true exactly when the parent's
everyone flag is set, or the child's is, or either department set is empty (a
null collection being always eligible), or the two department id sets intersect. -/
theorem eligibility_matches_spec (d : SimpleDocument) (s : SimpleCollection)
    (col : Option CollectionDetail) :
    (isDocEligibleForCollection d col = true ↔ eligibleSpec d.everyone d.departments col) ∧
    (isSubcollectionEligibleForCollection s col = true ↔ eligibleSpec s.everyone s.departments col) := by
  cases col with
  | none => simp [isDocEligibleForCollection, isSubcollectionEligibleForCollection, eligibleSpec]
  | some c =>
    constructor
    · simpa [isDocEligibleForCollection, eligibleSpec] using
        eligible_core_iff d.everyone d.departments c
    · simpa [isSubcollectionEligibleForCollection, eligibleSpec] using
        eligible_core_iff s.everyone s.departments c

/-! ## C3 — `normalizeTag` from DocumentPage.tsx -/

/-- The `target_kind` union from DocumentPage.tsx. -/
inductive TagKind
  | department
  | collection
  | document
  | external
  | none
deriving DecidableEq, Repr

/-- The `target_value` object shape from DocumentPage.tsx. -/
structure TargetValue where
  slug : Option String := Option.none
  id : Option Int := Option.none
  url : Option String := Option.none
deriving DecidableEq, Repr

/-- The `RawTag` shape from DocumentPage.tsx. -/
structure RawTag where
  id : Int
  name : String
  slug : String
  target_kind : Option TagKind := Option.none
  target_value : Option TargetValue := Option.none
  link_document : Option Int := Option.none
  link_url : Option String := Option.none
  link_department : Option Int := Option.none
  link_collection : Option Int := Option.none
deriving DecidableEq, Repr

/-- The `NormalizedTag` shape from DocumentPage.tsx: a `RawTag` with a definite
`target_kind` and `target_value` (the `{...t, target_kind, target_value}` spread). -/
structure NormalizedTag where
  id : Int
  name : String
  slug : String
  target_kind : TagKind
  target_value : TargetValue
  link_document : Option Int := Option.none
  link_url : Option String := Option.none
  link_department : Option Int := Option.none
  link_collection : Option Int := Option.none
deriving DecidableEq, Repr

/-- Helper for the `{...t, target_kind: k, target_value: v}` spread. -/
def RawTag.withKind (t : RawTag) (k : TagKind) (v : TargetValue) : NormalizedTag :=
  { id := t.id, name := t.name, slug := t.slug, target_kind := k, target_value := v,
    link_document := t.link_document, link_url := t.link_url,
    link_department := t.link_department, link_collection := t.link_collection }

/-- `normalizeTag` from DocumentPage.tsx (identical in the part_003/part_004 copies).
JS truthiness of the guards (`if (t.target_kind && t.target_value)`,
`if (t.link_department)`, …) is rendered through `jsTruthyInt`/`jsTruthyStr`:
a present numeric link equal to `0` and a present empty `link_url` are falsy. -/
def normalizeTag (t : RawTag) : NormalizedTag :=
  match t.target_kind, t.target_value with
  | some k, some v => t.withKind k v
  | _, _ =>
    if jsTruthyInt t.link_department then
      t.withKind TagKind.department { slug := some t.slug }
    else if jsTruthyInt t.link_collection then
      t.withKind TagKind.collection { slug := some t.slug }
    else if jsTruthyInt t.link_document then
      t.withKind TagKind.document { id := t.link_document }
    else if jsTruthyStr t.link_url then
      t.withKind TagKind.external { url := t.link_url }
    else t.withKind TagKind.none {}

/-- The claim's reading of the fallback: the kind is determined by the first
NON-NULL link field in the precedence order department, collection, document, url. -/
def firstNonNullLinkKind (t : RawTag) : TagKind :=
  if t.link_department.isSome then TagKind.department
  else if t.link_collection.isSome then TagKind.collection
  else if t.link_document.isSome then TagKind.document
  else if t.link_url.isSome then TagKind.external
  else TagKind.none

/-- The kind the code actually assigns in the fallback: the first TRUTHY link
field (non-null and non-zero for numeric links, non-null and non-empty for the url). -/
def firstTruthyLinkKind (t : RawTag) : TagKind :=
  if jsTruthyInt t.link_department then TagKind.department
  else if jsTruthyInt t.link_collection then TagKind.collection
  else if jsTruthyInt t.link_document then TagKind.document
  else if jsTruthyStr t.link_url then TagKind.external
  else TagKind.none

/-- A tag whose only link field is a present `link_department` with value `0`:
non-null, but falsy in JS. -/
def zeroDeptTag : RawTag :=
  { id := 1, name := "ops", slug := "ops", link_department := some 0 }

/-- Claim C3, counterexample: on a tag whose `link_department` is present but `0`,
`normalizeTag` assigns kind `none`, not the kind `department` dictated by the
claim's "first non-null link field" rule — the code tests JS truthiness, not nullness. -/
theorem normalizeTag_nonnull_counterexample :
    (normalizeTag zeroDeptTag).target_kind = TagKind.none ∧
    firstNonNullLinkKind zeroDeptTag = TagKind.department ∧
    (normalizeTag zeroDeptTag).target_kind ≠ firstNonNullLinkKind zeroDeptTag := by
  refine ⟨rfl, rfl, ?_⟩
  decide

/-- Claim C3 as amended: `normalizeTag` assigns exactly one `target_kind`: a tag
arriving with both `target_kind` and `target_value` keeps them; otherwise the kind
is the first TRUTHY link field in the precedence order `link_department`,
`link_collection`, `link_document`, `link_url` (a present-but-zero numeric link or
a present-but-empty url is skipped, as JS truthiness dictates); and a tag with no
truthy link gets kind `none` with an empty `target_value`. -/
theorem normalizeTag_assigns_exactly_one_kind (t : RawTag) :
    (∀ k v, t.target_kind = some k → t.target_value = some v →
      (normalizeTag t).target_kind = k ∧ (normalizeTag t).target_value = v) ∧
    ((t.target_kind = Option.none ∨ t.target_value = Option.none) →
      (normalizeTag t).target_kind = firstTruthyLinkKind t ∧
      (firstTruthyLinkKind t = TagKind.none →
        (normalizeTag t).target_value = {})) := by
  constructor
  · intro k v hk hv
    simp [normalizeTag, hk, hv, RawTag.withKind]
  · intro h
    have hsplit : (normalizeTag t) =
        (if jsTruthyInt t.link_department then
          t.withKind TagKind.department { slug := some t.slug }
        else if jsTruthyInt t.link_collection then
          t.withKind TagKind.collection { slug := some t.slug }
        else if jsTruthyInt t.link_document then
          t.withKind TagKind.document { id := t.link_document }
        else if jsTruthyStr t.link_url then
          t.withKind TagKind.external { url := t.link_url }
        else t.withKind TagKind.none {}) := by
      rcases hk : t.target_kind with _ | k <;> rcases hv : t.target_value with _ | v <;>
        rcases h with h | h <;> simp_all [normalizeTag]
    rw [hsplit]
    unfold firstTruthyLinkKind
    by_cases h1 : jsTruthyInt t.link_department = true
    · simp [h1, RawTag.withKind]
    · rw [Bool.not_eq_true] at h1
      by_cases h2 : jsTruthyInt t.link_collection = true
      · simp [h1, h2, RawTag.withKind]
      · rw [Bool.not_eq_true] at h2
        by_cases h3 : jsTruthyInt t.link_document = true
        · simp [h1, h2, h3, RawTag.withKind]
        · rw [Bool.not_eq_true] at h3
          by_cases h4 : jsTruthyStr t.link_url = true
          · simp [h1, h2, h3, h4, RawTag.withKind]
          · rw [Bool.not_eq_true] at h4
            simp [h1, h2, h3, h4, RawTag.withKind]

/-- A concrete tag with only a truthy `link_collection`. -/
def guidesTag : RawTag :=
  { id := 2, name := "guides", slug := "guides", link_collection := some 7 }

/-- Witness for the amended C3 theorem at a concrete input: a tag with only a
truthy `link_collection` normalizes to kind `collection`. -/
theorem normalizeTag_assigns_exactly_one_kind_witness :
    (guidesTag.target_kind = Option.none ∨ guidesTag.target_value = Option.none) ∧
    (normalizeTag guidesTag).target_kind = firstTruthyLinkKind guidesTag :=
  ⟨Or.inl rfl, ((normalizeTag_assigns_exactly_one_kind guidesTag).2 (Or.inl rfl)).1⟩

/-! ## C8 — the new-document flow (NewDocumentPage.tsx) -/

/-- The body of the `POST /documents/` request issued by NewDocumentPage.tsx's
`createDocument` effect (`departments` is not sent). -/
structure DocCreatePayload where
  title : String
  status : String
  everyone : Bool
  departments : Option (List Int)
deriving Repr

/-- The concrete payload NewDocumentPage.tsx posts for every new document. -/
def newDocumentPayload : DocCreatePayload :=
  { title := "Untitled document", status := "draft", everyone := true,
    departments := Option.none }

/-- The visibility guard condition (DocumentPage.tsx `handleSaveDocument`, and
the spec's `RestrictedWithNoDepartment`): restricted with no department. -/
def restrictedWithNoDepartment (everyone : Bool) (departments : List Int) : Bool :=
  !everyone && departments.length == 0

/-- Claim C8: every document created through the new-document flow is created with
status `draft`, `everyone = true` and no departments, and that payload passes the
restricted-with-no-department visibility validation. -/
theorem newDocument_draft_everyone_valid :
    newDocumentPayload.status = "draft" ∧
    newDocumentPayload.everyone = true ∧
    newDocumentPayload.departments = Option.none ∧
    restrictedWithNoDepartment newDocumentPayload.everyone
      (newDocumentPayload.departments.getD []) = false :=
  ⟨rfl, rfl, rfl, rfl⟩

/-! ## C2 — `handleSaveDocument` (DocumentPage.tsx, and the part_003 copy) -/

/-- The section fields `handleSaveDocument` reads. -/
structure SectionState where
  id : Int
  header : String
  body_md : String
deriving DecidableEq, Repr

/-- The resource-link fields `handleSaveDocument` reads. -/
structure LinkState where
  id : Int
  title : String
  url : String
  note : String
deriving DecidableEq, Repr

/-- The document fields `handleSaveDocument` reads. -/
structure DocState where
  id : Int
  title : String
  status : String
  everyone : Bool
  departments : Option (List Int)
  sections : Option (List SectionState)
  links : Option (List LinkState)
deriving Repr

/-- One HTTP request the save handler can issue, in order. -/
inductive ApiCall
  | deleteSection (id : Int)
  | deleteLink (id : Int)
  | patchDocument (id : Int) (title status : String) (everyone : Bool)
  | postSection (docId : Int) (ord : Nat) (header body : String)
  | patchSection (id : Int) (ord : Nat) (header body : String)
  | postLink (docId : Int) (title url note : String)
  | patchLink (id : Int) (title url note : String)
  | getDocument (id : Int)
deriving DecidableEq, Repr

/-- The inline error message of the visibility guard in `handleSaveDocument`. -/
def restrictedSaveError : String :=
  "When visibility is restricted, this document must belong to at least one department. Add a department tag first."

/-- `handleSaveDocument` from DocumentPage.tsx (lines 374–486), embedded as the
error it reports and the ordered list of requests it issues. The `!doc?.id`
early return for a page without a loaded document is outside this model; the
network itself is assumed up, since the claim is about the validation gate. -/
def handleSaveDocument (doc : DocState) (deletedSectionIds deletedLinkIds : List Int) :
    Option String × List ApiCall :=
  let deptCount := (doc.departments.getD []).length
  if !doc.everyone && deptCount == 0 then
    (some restrictedSaveError, [])
  else
    let dels := deletedSectionIds.map ApiCall.deleteSection ++
      deletedLinkIds.map ApiCall.deleteLink
    let patch := [ApiCall.patchDocument doc.id doc.title doc.status doc.everyone]
    let secs :=
      match doc.sections with
      | some ss => ss.enum.map (fun p =>
          if p.2.id < 0 then ApiCall.postSection doc.id p.1 p.2.header p.2.body_md
          else ApiCall.patchSection p.2.id p.1 p.2.header p.2.body_md)
      | none => []
    let lnks :=
      match doc.links with
      | some ls => ls.map (fun l =>
          if l.id < 0 then ApiCall.postLink doc.id l.title l.url l.note
          else ApiCall.patchLink l.id l.title l.url l.note)
      | none => []
    (Option.none, dels ++ patch ++ secs ++ lnks ++ [ApiCall.getDocument doc.id])

/-- `handleSaveDocument` from the part_003 copy of DocumentPage.tsx (lines 210–245),
which only patches the top-level metadata behind the same guard. -/
def handleSaveDocumentMeta (doc : DocState) : Option String × List ApiCall :=
  let deptCount := (doc.departments.getD []).length
  if !doc.everyone && deptCount == 0 then
    (some restrictedSaveError, [])
  else
    (Option.none, [ApiCall.patchDocument doc.id doc.title doc.status doc.everyone])

/-- Claim C2: saving a document with `everyone = false` and an empty department set
reports the restricted-with-no-department error and issues no request at all (no
deletions, no patches), leaving the stored document unchanged; with `everyone = true`
or at least one department the save proceeds: no validation error, and the document
metadata PATCH is among the issued requests. Both copies of the handler agree. -/
theorem save_rejects_restricted_without_department (doc : DocState)
    (deletedSectionIds deletedLinkIds : List Int) :
    (doc.everyone = false → doc.departments.getD [] = [] →
      handleSaveDocument doc deletedSectionIds deletedLinkIds = (some restrictedSaveError, []) ∧
      handleSaveDocumentMeta doc = (some restrictedSaveError, [])) ∧
    (doc.everyone = true ∨ (doc.departments.getD []).length ≥ 1 →
      (handleSaveDocument doc deletedSectionIds deletedLinkIds).1 = Option.none ∧
      ApiCall.patchDocument doc.id doc.title doc.status doc.everyone ∈
        (handleSaveDocument doc deletedSectionIds deletedLinkIds).2 ∧
      handleSaveDocumentMeta doc =
        (Option.none, [ApiCall.patchDocument doc.id doc.title doc.status doc.everyone])) := by
  constructor
  · intro he hd
    rw [handleSaveDocument, handleSaveDocumentMeta, he, hd]
    exact ⟨rfl, rfl⟩
  · intro h
    have hguard : (!doc.everyone && (doc.departments.getD []).length == 0) = false := by
      rcases h with h | h
      · simp [h]
      · have : ((doc.departments.getD []).length == 0) = false := by
          simp only [beq_eq_false_iff_ne, ne_eq]
          omega
        simp [this]
    refine ⟨?_, ?_, ?_⟩
    · simp [handleSaveDocument, hguard]
    · simp [handleSaveDocument, hguard]
    · simp [handleSaveDocumentMeta, hguard]

/-- Witness for C2 at concrete inputs: a restricted, department-less document is
rejected with no requests, and an `everyone = true` document is saved. -/
theorem save_rejects_restricted_without_department_witness :
    (handleSaveDocument
        { id := 1, title := "D1", status := "draft", everyone := false,
          departments := some [], sections := Option.none, links := Option.none }
        [] [] = (some restrictedSaveError, [])) ∧
    (handleSaveDocument
        { id := 1, title := "D1", status := "draft", everyone := true,
          departments := some [], sections := Option.none, links := Option.none }
        [] []).1 = Option.none :=
  ⟨((save_rejects_restricted_without_department
      { id := 1, title := "D1", status := "draft", everyone := false,
        departments := some [], sections := Option.none, links := Option.none }
      [] []).1 rfl rfl).1,
   ((save_rejects_restricted_without_department
      { id := 1, title := "D1", status := "draft", everyone := true,
        departments := some [], sections := Option.none, links := Option.none }
      [] []).2 (Or.inl rfl)).1⟩

/-! ## C4 — the manual-tag detach path (ManageTagsModal.tsx) -/

/-- The `RawTag` shape of ManageTagsModal.tsx (no `target_kind`; `slug` optional). -/
structure ModalTag where
  id : Int
  name : String
  slug : Option String := Option.none
  link_document : Option Int := Option.none
  link_url : Option String := Option.none
  link_department : Option Int := Option.none
  link_collection : Option Int := Option.none
deriving DecidableEq, Repr

/-- A structural tag in the modal's sense: a truthy `link_department` or
`link_collection` (the spec's `target_kind ∈ {department, collection}`). -/
def ModalTag.structural (t : ModalTag) : Bool :=
  jsTruthyInt t.link_department || jsTruthyInt t.link_collection

/-- `manualTagsOnDoc` from ManageTagsModal.tsx: the document's tags without
`link_department` and without `link_collection`. -/
def manualTagsOnDoc (docTags : List ModalTag) : List ModalTag :=
  docTags.filter (fun t => !jsTruthyInt t.link_department && !jsTruthyInt t.link_collection)

/-- The modal state the detach handler touches: the manual selection working copy
and the error channel (`tagError`, set by `setTagError`). -/
structure ModalState where
  selectedManualTagIds : List Int
  tagError : Option String
deriving DecidableEq, Repr

/-- The initial modal state for a document: the manual-tag ids of the document,
no error (the selection-initialization effect of ManageTagsModal.tsx). -/
def initModalState (docTags : List ModalTag) : ModalState :=
  { selectedManualTagIds := (manualTagsOnDoc docTags).map (·.id),
    tagError := Option.none }

/-- `handleDetachManualTag` from ManageTagsModal.tsx (lines 342–345): if the id is
not in the manual selection it returns without doing anything; otherwise it filters
the id out of the selection. It never touches `tagError`. -/
def handleDetachManualTag (st : ModalState) (tagId : Int) : ModalState :=
  if st.selectedManualTagIds.contains tagId then
    { st with selectedManualTagIds := st.selectedManualTagIds.filter (fun i => i ≠ tagId) }
  else st

/-- A concrete document tag set: one structural department tag (id 10), one manual tag (id 3). -/
def structuralDocTags : List ModalTag :=
  [{ id := 10, name := "Engineering", link_department := some 5 },
   { id := 3, name := "howto" }]

/-- Claim C4, counterexample: detaching the structural tag (id 10) through the
manual-tag path does NOT fail with any error — `tagError` stays empty and the state
is untouched. The claim's "always fails with an ImmutableTagError" is false: the
handler rejects structural tags silently, and no ImmutableTagError exists in the code. -/
theorem detach_structural_tag_counterexample :
    handleDetachManualTag (initModalState structuralDocTags) 10 =
      initModalState structuralDocTags ∧
    (handleDetachManualTag (initModalState structuralDocTags) 10).tagError = Option.none := by
  constructor <;> rfl

/-- Claim C4 as amended: detaching a structural tag via the manual-tag path is a
silent no-op rather than an `ImmutableTagError`: structural tags (truthy
`link_department` or `link_collection`) never enter the manual selection, so the
detach handler leaves the whole modal state — selection and error channel —
unchanged, and reports no error. -/
theorem detach_structural_tag_is_silent_noop (docTags : List ModalTag) (t : ModalTag)
    (hmem : t ∈ docTags) (hstruct : t.structural = true)
    (hids : ∀ u ∈ docTags, u.id = t.id → u = t) :
    t.id ∉ (initModalState docTags).selectedManualTagIds ∧
    handleDetachManualTag (initModalState docTags) t.id = initModalState docTags ∧
    (handleDetachManualTag (initModalState docTags) t.id).tagError = Option.none := by
  have hnot : t.id ∉ (initModalState docTags).selectedManualTagIds := by
    intro hin
    simp only [initModalState, manualTagsOnDoc, List.mem_map, List.mem_filter] at hin
    obtain ⟨u, ⟨humem, hu⟩, huid⟩ := hin
    have := hids u humem huid
    subst this
    rw [ModalTag.structural] at hstruct
    rcases Bool.or_eq_true_iff.mp hstruct with h | h <;> simp [h] at hu
  have hcontains : (initModalState docTags).selectedManualTagIds.contains t.id = false := by
    simpa using hnot
  refine ⟨hnot, ?_, ?_⟩
  · rw [handleDetachManualTag, hcontains]
    simp
  · rw [handleDetachManualTag, hcontains]
    simp [initModalState]

/-- Witness for the amended C4 theorem at the concrete document above. -/
theorem detach_structural_tag_is_silent_noop_witness :
    ({ id := 10, name := "Engineering", link_department := some 5 : ModalTag} ∈
        structuralDocTags) ∧
    handleDetachManualTag (initModalState structuralDocTags) 10 =
      initModalState structuralDocTags :=
  ⟨by decide,
    (detach_structural_tag_is_silent_noop structuralDocTags
      { id := 10, name := "Engineering", link_department := some 5 }
      (by decide) (by decide) (by decide)).2.1⟩

/-! ## C7 — the axios response interceptor (lib/api.ts) -/

/-- The outcome of one attempt at a request: success, or an error carrying an
optional HTTP status (`Option.none` models a non-HTTP failure). -/
inductive Response
  | ok (data : Nat)
  | err (status : Option Nat)
deriving DecidableEq, Repr

/-- The pass-through test of the response interceptor in lib/api.ts:
`if (!status || status !== 401 || !config || config.__isRetry) reject`.
`jsFalsyStatus` renders JS truthiness of the status (0 is falsy). -/
def jsFalsyStatus : Option Nat → Bool
  | some s => s == 0
  | none => true

/-- True exactly when the interceptor rejects the error straight through. -/
def interceptorRejects (status : Option Nat) (hasConfig isRetry : Bool) : Bool :=
  jsFalsyStatus status || !(status == some 401) || !hasConfig || isRetry

/-- One client request run through the interceptor: the first attempt's outcome,
the retried attempt's outcome (used only if a retry happens), and whether
`/auth/refresh/` succeeds. Returns how many times the request was issued and the
final outcome. The retried config carries `__isRetry`, so its own errors are
always rejected straight through. -/
def runRequest (first second : Response) (refreshOk : Bool) : Nat × Response :=
  match first with
  | Response.ok d => (1, Response.ok d)
  | Response.err st =>
    if interceptorRejects st true false then (1, Response.err st)
    else if refreshOk then (2, second)
    else (1, Response.err st)

/-- Claim C7: an error whose status is not 401 (including the non-HTTP case) is
propagated to the caller unchanged and the request is never re-issued; a request
is issued at most twice, and a second issue happens only when the first response
was exactly a 401 error. -/
theorem non_401_never_retried (first second : Response) (refreshOk : Bool) :
    (∀ st, first = Response.err st → st ≠ some 401 →
      runRequest first second refreshOk = (1, Response.err st)) ∧
    (runRequest first second refreshOk).1 ≤ 2 ∧
    ((runRequest first second refreshOk).1 = 2 → first = Response.err (some 401)) := by
  refine ⟨?_, ?_, ?_⟩
  · rintro st rfl hne
    have : interceptorRejects st true false = true := by
      rcases st with _ | s
      · rfl
      · have : (some s == some 401) = false := by
          simp only [beq_eq_false_iff_ne, ne_eq]
          exact hne
        simp [interceptorRejects, this]
    rw [runRequest, this]
    simp
  · rcases first with d | st
    · simp [runRequest]
    · rw [runRequest]
      by_cases h : interceptorRejects st true false = true
      · simp [h]
      · rw [Bool.not_eq_true] at h
        rcases refreshOk with _ | _ <;> simp [h]
  · rcases first with d | st
    · simp [runRequest]
    · rw [runRequest]
      by_cases h : interceptorRejects st true false = true
      · simp [h]
      · rw [Bool.not_eq_true] at h
        have h401 : st = some 401 := by
          rcases st with _ | s
          · simp [interceptorRejects, jsFalsyStatus] at h
          · by_cases hs : s = 401
            · rw [hs]
            · exfalso
              have : (some s == some 401) = false := by
                simp only [beq_eq_false_iff_ne, ne_eq, Option.some.injEq]
                exact hs
              simp [interceptorRejects, this] at h
        intro _
        rw [h401]

/-- Witness for C7 at a concrete input: a 404 error is propagated unchanged after
a single issue of the request. -/
theorem non_401_never_retried_witness :
    runRequest (Response.err (some 404)) (Response.ok 0) true =
      (1, Response.err (some 404)) :=
  (non_401_never_retried (Response.err (some 404)) (Response.ok 0) true).1
    (some 404) rfl (by decide)

/-! ## C9 — the navigation path tree (state/PathTree.tsx) -/

/-- A node of the navigation path (`PathNode` in PathTree.tsx). -/
structure PathNode where
  kind : String
  name : String
  url : String
deriving DecidableEq, Repr

/-- JS `Array.prototype.findIndex`, with `-1` rendered as `Option.none`. -/
def findIndexJs (p : α → Bool) : List α → Option Nat
  | [] => Option.none
  | x :: xs => if p x then some 0 else (findIndexJs p xs).map (· + 1)

/-- `enter` from PathTree.tsx: if a node with the same url already exists, trim to
it (`prev.slice(0, idx + 1)`); otherwise append the node. -/
def enter (path : List PathNode) (node : PathNode) : List PathNode :=
  match findIndexJs (fun n => n.url == node.url) path with
  | some idx => path.take (idx + 1)
  | Option.none => path ++ [node]

/-- `trimTo` from PathTree.tsx: keep nodes up to the given url, or leave the path
alone if the url is absent. -/
def trimTo (path : List PathNode) (url : String) : List PathNode :=
  match findIndexJs (fun n => n.url == url) path with
  | some idx => path.take (idx + 1)
  | Option.none => path

/-- `resetTo` from PathTree.tsx: replace the whole path by one node or clear it. -/
def resetTo (node : Option PathNode) : List PathNode :=
  match node with
  | some n => [n]
  | Option.none => []

theorem findIndexJs_eq_none_iff (p : α → Bool) (l : List α) :
    findIndexJs p l = Option.none ↔ ∀ x ∈ l, p x = false := by
  induction l with
  | nil => simp [findIndexJs]
  | cons x xs ih =>
    by_cases h : p x = true
    · simp [findIndexJs, h]
    · rw [Bool.not_eq_true] at h
      simp [findIndexJs, h, ih]

theorem findIndexJs_take (p : α → Bool) (l : List α) (i : Nat)
    (h : findIndexJs p l = some i) : findIndexJs p (l.take (i + 1)) = some i := by
  induction l generalizing i with
  | nil => simp [findIndexJs] at h
  | cons x xs ih =>
    by_cases hx : p x = true
    · simp [findIndexJs, hx] at h
      simp [← h, List.take, findIndexJs, hx]
    · rw [Bool.not_eq_true] at hx
      simp only [findIndexJs, hx, Bool.false_eq_true, if_false, Option.map_eq_some'] at h
      obtain ⟨j, hj, rfl⟩ := h
      simp only [List.take, findIndexJs, hx, Bool.false_eq_true, if_false, ih j hj]
      rfl

theorem findIndexJs_split (p : α → Bool) (l : List α) (i : Nat)
    (h : findIndexJs p l = some i) :
    ∃ pre a, l.take (i + 1) = pre ++ [a] ∧ p a = true := by
  induction l generalizing i with
  | nil => simp [findIndexJs] at h
  | cons x xs ih =>
    by_cases hx : p x = true
    · simp [findIndexJs, hx] at h
      exact ⟨[], x, by simp [← h], hx⟩
    · rw [Bool.not_eq_true] at hx
      simp only [findIndexJs, hx, Bool.false_eq_true, if_false, Option.map_eq_some'] at h
      obtain ⟨j, hj, rfl⟩ := h
      obtain ⟨pre, a, hpre, hpa⟩ := ih j hj
      exact ⟨x :: pre, a, by simp [List.take, hpre], hpa⟩

theorem findIndexJs_append_last (p : α → Bool) (l : List α) (a : α)
    (h : findIndexJs p l = Option.none) (ha : p a = true) :
    findIndexJs p (l ++ [a]) = some l.length := by
  induction l with
  | nil => simp [findIndexJs, ha]
  | cons x xs ih =>
    have hx : p x = false := ((findIndexJs_eq_none_iff p (x :: xs)).mp h) x (by simp)
    have hxs : findIndexJs p xs = Option.none := by
      rw [findIndexJs_eq_none_iff]
      exact fun y hy => ((findIndexJs_eq_none_iff p (x :: xs)).mp h) y (by simp [hy])
    simp [findIndexJs, hx, ih hxs]

/-- Claim C9: the path-tree operations preserve pairwise-distinct urls; `enter` on a
path already containing the url truncates to that node (a prefix of the old path
ending in a node with that url) rather than appending; and `enter` is idempotent. -/
theorem pathTree_preserves_distinct_urls (path : List PathNode) (node : PathNode)
    (url : String) (onode : Option PathNode)
    (h : (path.map PathNode.url).Nodup) :
    ((enter path node).map PathNode.url).Nodup ∧
    ((trimTo path url).map PathNode.url).Nodup ∧
    ((resetTo onode).map PathNode.url).Nodup ∧
    (node.url ∈ path.map PathNode.url →
      (∃ rest, path = enter path node ++ rest) ∧
      (enter path node).getLast?.map PathNode.url = some node.url) ∧
    enter (enter path node) node = enter path node := by
  have htake : ∀ i, ((path.take i).map PathNode.url).Nodup :=
    fun i => h.sublist (List.Sublist.map _ (List.take_sublist i path))
  refine ⟨?_, ?_, ?_, ?_, ?_⟩
  · rcases hf : findIndexJs (fun n => n.url == node.url) path with _ | idx
    · have hnotin : node.url ∉ path.map PathNode.url := by
        intro hmem
        obtain ⟨x, hx, hxe⟩ := List.mem_map.mp hmem
        have := ((findIndexJs_eq_none_iff _ path).mp hf) x hx
        simp [hxe] at this
      simp only [enter, hf, List.map_append, List.map_cons, List.map_nil]
      exact List.Nodup.append h (List.nodup_singleton _) (by simpa using hnotin)
    · simp only [enter, hf]
      exact htake (idx + 1)
  · rcases hf : findIndexJs (fun n => n.url == url) path with _ | idx
    · simp only [trimTo, hf]
      exact h
    · simp only [trimTo, hf]
      exact htake (idx + 1)
  · rcases onode with _ | n <;> simp [resetTo]
  · intro hmem
    rcases hf : findIndexJs (fun n => n.url == node.url) path with _ | idx
    · exfalso
      obtain ⟨x, hx, hxe⟩ := List.mem_map.mp hmem
      have := ((findIndexJs_eq_none_iff _ path).mp hf) x hx
      simp [hxe] at this
    · obtain ⟨pre, a, hpre, hpa⟩ := findIndexJs_split _ path idx hf
      simp only [enter, hf]
      constructor
      · exact ⟨path.drop (idx + 1), (List.take_append_drop (idx + 1) path).symm⟩
      · rw [hpre, List.getLast?_concat]
        simp only [Option.map_some']
        rw [beq_iff_eq] at hpa
        rw [hpa]
  · rcases hf : findIndexJs (fun n => n.url == node.url) path with _ | idx
    · simp only [enter, hf]
      rw [findIndexJs_append_last _ path node hf (by simp)]
      show (path ++ [node]).take (path.length + 1) = path ++ [node]
      exact List.take_of_length_le (by simp)
    · simp only [enter, hf]
      rw [findIndexJs_take _ path idx hf]
      show (path.take (idx + 1)).take (idx + 1) = path.take (idx + 1)
      rw [List.take_take]
      simp

/-- Witness for C9 at a concrete path: entering the same collection node twice
yields the same path as entering it once. -/
theorem pathTree_preserves_distinct_urls_witness :
    (([⟨"home", "Home", "/"⟩] : List PathNode).map PathNode.url).Nodup ∧
    enter (enter [⟨"home", "Home", "/"⟩] ⟨"collection", "Guides", "/collections/guides"⟩)
        ⟨"collection", "Guides", "/collections/guides"⟩ =
      enter [⟨"home", "Home", "/"⟩] ⟨"collection", "Guides", "/collections/guides"⟩ :=
  ⟨by decide,
    (pathTree_preserves_distinct_urls [⟨"home", "Home", "/"⟩]
      ⟨"collection", "Guides", "/collections/guides"⟩ "/" Option.none
      (by decide)).2.2.2.2⟩

/-! ## C10 — slug generation (ManageCollectionsModal.tsx `slugify`, and the inline
generator in the new-collection page's `handleNameBlur`) -/

/-- A lowercase ASCII letter or digit — the `[a-z0-9]` class of the slug regexes. -/
def isLowerAlnum (c : Char) : Bool :=
  ('a' ≤ c && c ≤ 'z') || ('0' ≤ c && c ≤ '9')

/-- JS whitespace for `String.prototype.trim` (the characters relevant here). -/
def isJsWhitespace (c : Char) : Bool :=
  c == ' ' || c == '\t' || c == '\n' || c == '\r' ||
  c == Char.ofNat 11 || c == Char.ofNat 12 || c == Char.ofNat 160

/-- `String.prototype.trim`: strip whitespace from both ends. -/
def trimJs (l : List Char) : List Char :=
  ((l.dropWhile isJsWhitespace).reverse.dropWhile isJsWhitespace).reverse

/-- `String.prototype.toLowerCase`, restricted to the ASCII mapping (characters
outside A–Z are untouched; the slug property is insensitive to this choice since
every non-`[a-z0-9]` character is collapsed anyway). -/
def jsToLowerChar (c : Char) : Char :=
  if 'A' ≤ c && c ≤ 'Z' then Char.ofNat (c.toNat + 32) else c

/-- Worker for `replace(/[^a-z0-9]+/g, "-")`: `inRun` records whether the scanner
is inside a non-`[a-z0-9]` run whose replacement hyphen was already emitted. -/
def collapseAux (inRun : Bool) : List Char → List Char
  | [] => []
  | c :: rest =>
    if isLowerAlnum c then c :: collapseAux false rest
    else if inRun then collapseAux true rest
    else '-' :: collapseAux true rest

/-- `replace(/[^a-z0-9]+/g, "-")`: every maximal run of characters outside
`[a-z0-9]` becomes a single hyphen. -/
def collapseNonAlnum (l : List Char) : List Char :=
  collapseAux false l

/-- `replace(/^-+|-+$/g, "")` (the `slugify` version): remove every leading and
every trailing hyphen. -/
def stripEndHyphensA (l : List Char) : List Char :=
  ((l.dropWhile (fun c => c == '-')).reverse.dropWhile (fun c => c == '-')).reverse

/-- Removal of the single hyphen `/(^-|-$)+/g` can match at index 0. -/
def stripLeadHyphen (l : List Char) : List Char :=
  match l with
  | c :: rest => if c = '-' then rest else l
  | [] => l

/-- `replace(/(^-|-$)+/g, "")` (the `handleNameBlur` version). The JS pattern can
only match a hyphen at index 0 (`^-`, extensible by `-$` only when the whole string
is exactly `--`) and a final hyphen (`-$`): it removes one leading hyphen and then
one trailing hyphen. -/
def stripEndHyphensB (l : List Char) : List Char :=
  let l1 := stripLeadHyphen l
  if l1.getLast? = some '-' then l1.dropLast else l1

/-- `slugify` from ManageCollectionsModal.tsx:
`value.trim().toLowerCase().replace(/[^a-z0-9]+/g, "-").replace(/^-+|-+$/g, "")`. -/
def slugify (s : String) : String :=
  String.mk (stripEndHyphensA (collapseNonAlnum ((trimJs s.data).map jsToLowerChar)))

/-- The inline slug generator of the new-collection page's `handleNameBlur`:
`name.trim().toLowerCase().replace(/[^a-z0-9]+/g, "-").replace(/(^-|-$)+/g, "")`. -/
def newCollectionSlug (s : String) : String :=
  String.mk (stripEndHyphensB (collapseNonAlnum ((trimJs s.data).map jsToLowerChar)))

/-- The shape claimed for generated slugs: only lowercase ASCII alphanumerics and
hyphens, no hyphen at either end, and no two consecutive hyphens. -/
def goodSlug (l : List Char) : Prop :=
  (∀ c ∈ l, isLowerAlnum c = true ∨ c = '-') ∧
  (∀ c, l.head? = some c → c ≠ '-') ∧
  (∀ c, l.getLast? = some c → c ≠ '-') ∧
  l.Chain' (fun a b => ¬(a = '-' ∧ b = '-'))

theorem collapseAux_head_of_inRun (l : List Char) (c : Char)
    (h : (collapseAux true l).head? = some c) : isLowerAlnum c = true := by
  induction l with
  | nil => simp [collapseAux] at h
  | cons x xs ih =>
    by_cases hx : isLowerAlnum x = true
    · simp [collapseAux, hx] at h
      rw [← h]
      exact hx
    · rw [Bool.not_eq_true] at hx
      simp only [collapseAux, hx, Bool.false_eq_true, if_false, if_true] at h
      exact ih h

theorem collapseAux_mem (b : Bool) (l : List Char) :
    ∀ c ∈ collapseAux b l, isLowerAlnum c = true ∨ c = '-' := by
  induction l generalizing b with
  | nil => simp [collapseAux]
  | cons x xs ih =>
    intro c hc
    by_cases hx : isLowerAlnum x = true
    · simp [collapseAux, hx] at hc
      rcases hc with rfl | hc
      · exact Or.inl hx
      · exact ih false c hc
    · rw [Bool.not_eq_true] at hx
      rcases b with _ | _
      · simp [collapseAux, hx] at hc
        rcases hc with rfl | hc
        · exact Or.inr rfl
        · exact ih true c hc
      · simp [collapseAux, hx] at hc
        exact ih true c hc

theorem collapseAux_chain (b : Bool) (l : List Char) :
    (collapseAux b l).Chain' (fun a b => ¬(a = '-' ∧ b = '-')) := by
  induction l generalizing b with
  | nil => simp [collapseAux]
  | cons x xs ih =>
    by_cases hx : isLowerAlnum x = true
    · have : collapseAux b (x :: xs) = x :: collapseAux false xs := by
        simp [collapseAux, hx]
      rw [this, List.chain'_cons']
      refine ⟨?_, ih false⟩
      intro y hy
      rintro ⟨hx2, hy2⟩
      rw [hx2] at hx
      exact absurd hx (by decide)
    · rw [Bool.not_eq_true] at hx
      rcases b with _ | _
      · have : collapseAux false (x :: xs) = '-' :: collapseAux true xs := by
          simp [collapseAux, hx]
        rw [this, List.chain'_cons']
        refine ⟨?_, ih true⟩
        intro y hy
        rintro ⟨_, hy2⟩
        rw [Option.mem_def] at hy
        have := collapseAux_head_of_inRun xs y hy
        rw [hy2] at this
        exact absurd this (by decide)
      · have : collapseAux true (x :: xs) = collapseAux true xs := by
          simp [collapseAux, hx]
        rw [this]
        exact ih true

theorem head?_dropWhile_not (p : α → Bool) (l : List α) (c : α)
    (h : (l.dropWhile p).head? = some c) : p c = false := by
  induction l with
  | nil => simp [List.dropWhile] at h
  | cons x xs ih =>
    by_cases hx : p x = true
    · rw [List.dropWhile_cons, if_pos hx] at h
      exact ih h
    · rw [Bool.not_eq_true] at hx
      rw [List.dropWhile_cons, if_neg (by simp [hx])] at h
      simp only [List.head?_cons, Option.some.injEq] at h
      rw [← h]
      exact hx

theorem getLast?_of_suffix {l₁ l₂ : List α} (h : l₁ <:+ l₂) (c : α)
    (hc : l₁.getLast? = some c) : l₂.getLast? = some c := by
  obtain ⟨t, rfl⟩ := h
  rcases hl : l₁ with _ | ⟨a, m⟩
  · rw [hl] at hc
    simp at hc
  · rw [List.getLast?_append_of_ne_nil t (by simp [hl]), ← hl]
    exact hc

theorem head?_of_dropLast (l : List α) (c : α) (h : l.dropLast.head? = some c) :
    l.head? = some c := by
  rcases l with _ | ⟨a, t⟩
  · simp at h
  · rcases t with _ | ⟨b, t2⟩
    · simp [List.dropLast] at h
    · simp only [List.dropLast, List.head?_cons, Option.some.injEq] at h ⊢
      exact h

theorem chain'_rel_getLast_dropLast {R : α → α → Prop} (l : List α) (h : l.Chain' R)
    (a b : α) (ha : l.getLast? = some a) (hb : l.dropLast.getLast? = some b) : R b a := by
  have hrev : (l.reverse).Chain' (flip R) := List.chain'_reverse.mpr h
  have ha2 : (l.reverse).head? = some a := by
    rw [List.head?_reverse]
    exact ha
  have hb2 : (l.reverse).tail.head? = some b := by
    rw [List.tail_reverse_eq_reverse_dropLast, List.head?_reverse]
    exact hb
  rcases hm : l.reverse with _ | ⟨x, m⟩
  · rw [hm] at ha2
    simp at ha2
  · rw [hm] at ha2 hb2 hrev
    simp only [List.head?_cons, Option.some.injEq] at ha2
    simp only [List.tail_cons] at hb2
    have := (List.chain'_cons'.mp hrev).1 b (by rw [Option.mem_def]; exact hb2)
    rw [← ha2]
    exact this

theorem stripEndHyphensA_goodSlug (l : List Char)
    (hmem : ∀ c ∈ l, isLowerAlnum c = true ∨ c = '-')
    (hchain : l.Chain' (fun a b => ¬(a = '-' ∧ b = '-'))) :
    goodSlug (stripEndHyphensA l) := by
  set p : Char → Bool := fun c => c == '-' with hp
  have hsub1 : (l.dropWhile p) <:+ l := List.dropWhile_suffix p
  set d := l.dropWhile p with hd
  have hsub2 : (d.reverse.dropWhile p) <:+ d.reverse := List.dropWhile_suffix p
  refine ⟨?_, ?_, ?_, ?_⟩
  · intro c hc
    apply hmem c
    rw [stripEndHyphensA] at hc
    rw [List.mem_reverse] at hc
    have hc2 := hsub2.sublist.subset hc
    rw [List.mem_reverse] at hc2
    exact hsub1.sublist.subset hc2
  · intro c hc
    rw [stripEndHyphensA, List.head?_reverse] at hc
    rcases he : (d.reverse.dropWhile p).getLast? with _ | c2
    · rw [he] at hc
      cases hc
    · rw [he] at hc
      cases hc
      have hlast : d.reverse.getLast? = some c := getLast?_of_suffix hsub2 c he
      rw [List.getLast?_reverse] at hlast
      have := head?_dropWhile_not p l c hlast
      simpa [hp] using this
  · intro c hc
    rw [stripEndHyphensA, List.getLast?_reverse] at hc
    have := head?_dropWhile_not p d.reverse c hc
    simpa [hp] using this
  · rw [stripEndHyphensA]
    have c1 : d.Chain' (fun a b => ¬(a = '-' ∧ b = '-')) := hchain.suffix hsub1
    have c2 : d.reverse.Chain' (flip (fun a b => ¬(a = '-' ∧ b = '-'))) :=
      List.chain'_reverse.mpr c1
    have c3 : (d.reverse.dropWhile p).Chain' (flip (fun a b => ¬(a = '-' ∧ b = '-'))) :=
      c2.suffix hsub2
    exact List.chain'_reverse.mpr c3

theorem stripEndHyphensB_goodSlug (l : List Char)
    (hmem : ∀ c ∈ l, isLowerAlnum c = true ∨ c = '-')
    (hchain : l.Chain' (fun a b => ¬(a = '-' ∧ b = '-'))) :
    goodSlug (stripEndHyphensB l) := by
  have lead : (stripLeadHyphen l) <:+ l ∧
      (∀ c, (stripLeadHyphen l).head? = some c → c ≠ '-') := by
    rcases l with _ | ⟨a, t⟩
    · exact ⟨List.nil_suffix, by simp [stripLeadHyphen]⟩
    · by_cases hla : a = '-'
      · rw [stripLeadHyphen, if_pos hla]
        refine ⟨⟨[a], rfl⟩, ?_⟩
        intro c hc
        have := (List.chain'_cons'.mp hchain).1 c (by rw [Option.mem_def]; exact hc)
        intro hcd
        exact this ⟨hla, hcd⟩
      · rw [stripLeadHyphen, if_neg hla]
        refine ⟨List.suffix_refl _, ?_⟩
        intro c hc
        simp only [List.head?_cons, Option.some.injEq] at hc
        rw [← hc]
        exact hla
  set l1 := stripLeadHyphen l with hl1
  have hmem1 : ∀ c ∈ l1, isLowerAlnum c = true ∨ c = '-' :=
    fun c hc => hmem c (lead.1.sublist.subset hc)
  have hchain1 : l1.Chain' (fun a b => ¬(a = '-' ∧ b = '-')) := hchain.suffix lead.1
  rw [stripEndHyphensB]
  by_cases hend : l1.getLast? = some '-'
  · rw [if_pos hend]
    refine ⟨?_, ?_, ?_, hchain1.init⟩
    · intro c hc
      exact hmem1 c (l1.dropLast_prefix.sublist.subset hc)
    · intro c hc
      exact lead.2 c (head?_of_dropLast l1 c hc)
    · intro c hc
      have := chain'_rel_getLast_dropLast l1 hchain1 '-' c hend hc
      intro hcd
      exact this ⟨hcd, rfl⟩
  · rw [if_neg hend]
    refine ⟨hmem1, lead.2, ?_, hchain1⟩
    intro c hc
    intro hcd
    rw [hcd] at hc
    exact hend hc

/-- Claim C10: both slug generators — `slugify` in the collections modal and the
inline generator of the new-collection page — return strings made only of lowercase
ASCII letters, digits and single hyphens, with no hyphen at either end and no two
consecutive hyphens; the empty string is a possible output (e.g. on input `"-"`). -/
theorem slug_generators_produce_clean_slugs (s : String) :
    goodSlug (slugify s).data ∧ goodSlug (newCollectionSlug s).data ∧
    slugify "-" = "" ∧ newCollectionSlug "-" = "" := by
  set m := (trimJs s.data).map jsToLowerChar with hm
  have hmem := collapseAux_mem false m
  have hchain := collapseAux_chain false m
  refine ⟨?_, ?_, rfl, rfl⟩
  · exact stripEndHyphensA_goodSlug (collapseNonAlnum m) hmem hchain
  · exact stripEndHyphensB_goodSlug (collapseNonAlnum m) hmem hchain

/-! ## C5 — tag/membership symmetry (Tag Synchronizer; modelled from the spec,
since the backend synchronizer is not part of the repository source) -/

/-- Modelled from the spec (§4.1): structural tags are matched by their stable
key `(target_kind, target_id)`, never by name. -/
structure STag where
  kind : TagKind
  target : Int
deriving DecidableEq, Repr

/-- Modelled from the spec: a Document or Collection as the Tag Synchronizer sees
it — its department membership set and its attached tag set. -/
structure Entity where
  departments : List Int
  tags : List STag
deriving DecidableEq, Repr

/-- The structural tag mirroring the membership in department `p`. -/
def deptTag (p : Int) : STag := ⟨TagKind.department, p⟩

/-- Modelled from the spec (§4.1 `syncDepartmentTags`): detach the structural
department tags of removed departments (the tags themselves are not deleted),
attach — creating if absent — one structural tag per added department, and store
the new membership set. Non-department tags are never touched. -/
def syncDepartmentTags (e : Entity) (newIds : List Int) : Entity :=
  { departments := newIds,
    tags := e.tags.filter
        (fun t => !(t.kind == TagKind.department) || newIds.contains t.target) ++
      (newIds.filter (fun p => !(e.tags.contains (deptTag p)))).map deptTag }

/-- Modelled from the spec (§4.1 failure semantics and §7 `TagSyncFailure`): when
the underlying store rejects the tag update, the whole membership mutation is
rolled back atomically, leaving the entity unchanged. -/
def syncDepartmentTagsChecked (e : Entity) (newIds : List Int) (storeOk : Bool) :
    Entity × Bool :=
  if storeOk then (syncDepartmentTags e newIds, true) else (e, false)

/-- The tag/membership symmetry invariant of §8: a department is a member exactly
when its structural tag is attached. -/
def tagMembershipSymmetry (e : Entity) : Prop :=
  ∀ p : Int, p ∈ e.departments ↔ deptTag p ∈ e.tags

theorem syncDepartmentTags_symmetry_core (e : Entity) (newIds : List Int) :
    tagMembershipSymmetry (syncDepartmentTags e newIds) := by
  intro p
  simp only [syncDepartmentTags, List.mem_append]
  constructor
  · intro hp
    by_cases hin : deptTag p ∈ e.tags
    · left
      rw [List.mem_filter]
      refine ⟨hin, ?_⟩
      simp [deptTag, hp]
    · right
      rw [List.mem_map]
      refine ⟨p, ?_, rfl⟩
      rw [List.mem_filter]
      refine ⟨hp, ?_⟩
      simpa using hin
  · intro h
    rcases h with h | h
    · rw [List.mem_filter] at h
      have hcond := h.2
      simp [deptTag] at hcond
      exact hcond
    · rw [List.mem_map] at h
      obtain ⟨q, hq, hqe⟩ := h
      have hqp : q = p := by
        simpa [deptTag, STag.mk.injEq] using hqe
      subst hqp
      exact (List.mem_filter.mp hq).1

/-- Claim C5 (spec-modelled): after every successful `syncDepartmentTags` call a
department is in the entity's membership set exactly when its structural tag is in
the entity's tag set, and a failed call rolls back to the unchanged entity, so the
symmetry also holds after failures whenever it held before. -/
theorem dept_membership_tag_symmetry (e : Entity) (newIds : List Int) (storeOk : Bool) :
    tagMembershipSymmetry (syncDepartmentTags e newIds) ∧
    ((syncDepartmentTagsChecked e newIds storeOk).2 = false →
      (syncDepartmentTagsChecked e newIds storeOk).1 = e) ∧
    (tagMembershipSymmetry e →
      tagMembershipSymmetry (syncDepartmentTagsChecked e newIds storeOk).1) := by
  refine ⟨syncDepartmentTags_symmetry_core e newIds, ?_, ?_⟩
  · intro h
    rcases storeOk with _ | _
    · rfl
    · simp [syncDepartmentTagsChecked] at h
  · intro h
    rcases storeOk with _ | _
    · simpa [syncDepartmentTagsChecked] using h
    · simpa [syncDepartmentTagsChecked] using syncDepartmentTags_symmetry_core e newIds

/-- Witness for C5 at a concrete input: the empty entity is symmetric, and stays so
through a failed (rolled-back) sync. -/
theorem dept_membership_tag_symmetry_witness :
    tagMembershipSymmetry ⟨[], []⟩ ∧
    tagMembershipSymmetry (syncDepartmentTagsChecked ⟨[], []⟩ [5] false).1 :=
  ⟨fun p => by simp [tagMembershipSymmetry],
    (dept_membership_tag_symmetry ⟨[], []⟩ [5] false).2.2
      (fun p => by simp [tagMembershipSymmetry])⟩

/-! ## C6 — the Collection Hierarchy Manager (modelled from the spec, since the
backend hierarchy code is not part of the repository source) -/

/-- Modelled from the spec (§4.3): the hierarchy state is the parent pointer of
every collection, keyed by collection id (`Option.none` = root). -/
abbrev HierState := List (Nat × Option Nat)

/-- First entry for a given collection id, if any. -/
def lookupEntry : HierState → Nat → Option (Option Nat)
  | [], _ => Option.none
  | e :: rest, x => if e.1 = x then some e.2 else lookupEntry rest x

/-- The parent of a collection (`Option.none` for roots and unknown ids). -/
def parentOf (st : HierState) (x : Nat) : Option Nat :=
  (lookupEntry st x).bind id

/-- The collection ids present in the state. -/
def hkeys (st : HierState) : List Nat := st.map Prod.fst

/-- `k`-fold parent iteration: the `k`-th strict ancestor when it exists. -/
def anc (st : HierState) : Nat → Nat → Option Nat
  | 0, x => some x
  | k + 1, x => (parentOf st x).bind (anc st k)

/-- Modelled from the spec (§4.3 `setParent`): the ancestor-chain walk of the
cycle check, fuelled generously enough to traverse any acyclic chain. -/
def hitsTarget (st : HierState) : Nat → Nat → Nat → Bool
  | 0, _, _ => false
  | fuel + 1, x, target =>
    if x = target then true
    else
      match parentOf st x with
      | some p => hitsTarget st fuel p target
      | Option.none => false

/-- The two hierarchy validation failures of §4.3. -/
inductive HierarchyError
  | selfNesting
  | cycle
deriving DecidableEq, Repr

/-- Redirect the parent pointer of collection `c` (no change for unknown ids). -/
def updateParent (st : HierState) (c : Nat) (q : Option Nat) : HierState :=
  st.map (fun e => if e.1 = c then (e.1, q) else e)

/-- Modelled from the spec (§4.3 `setParent`): fail with `SelfNestingError` when
the new parent is the collection itself, with `CycleError` when walking the
ancestor chain from the new parent encounters the collection, and otherwise
update the parent pointer; on failure the state is returned untouched. -/
def setParentRun (st : HierState) (c : Nat) (newParent : Option Nat) :
    HierState × Option HierarchyError :=
  match newParent with
  | Option.none => (updateParent st c Option.none, Option.none)
  | some q =>
    if q = c then (st, some HierarchyError.selfNesting)
    else if hitsTarget st (st.length + 1) q c then (st, some HierarchyError.cycle)
    else (updateParent st c (some q), Option.none)

/-- The sub-collections of `p`: the ids whose parent pointer is `p`. -/
def children (st : HierState) (p : Nat) : List Nat :=
  (hkeys st).filter (fun y => parentOf st y == some p)

/-- Modelled from the spec (§4.3 `listDescendants`): breadth-first traversal of
the child lists, guarded by a visited set and fuelled for completeness. -/
def bfsDesc (st : HierState) : Nat → List Nat → List Nat → List Nat
  | 0, _, visited => visited
  | _ + 1, [], visited => visited
  | fuel + 1, x :: queue, visited =>
    if visited.contains x then bfsDesc st fuel queue visited
    else bfsDesc st fuel (queue ++ children st x) (visited ++ [x])

def listDescendants (st : HierState) (c : Nat) : List Nat :=
  bfsDesc st ((st.length + 1) * (st.length + 1)) (children st c) []

/-- Acyclicity of the hierarchy: no collection is its own strict ancestor. -/
def Acyclic (st : HierState) : Prop :=
  ∀ x k, k ≠ 0 → anc st k x ≠ some x

theorem anc_add (st : HierState) (m n x : Nat) :
    anc st (m + n) x = (anc st n x).bind (anc st m) := by
  induction n generalizing x with
  | zero => simp [anc]
  | succ n ih =>
    have he : m + (n + 1) = (m + n) + 1 := by omega
    rw [he]
    cases hp : parentOf st x with
    | none => simp [anc, hp]
    | some p => simp [anc, hp, ih]

theorem anc_one (st : HierState) (x : Nat) : anc st 1 x = parentOf st x := by
  cases hp : parentOf st x <;> simp [anc, hp]

theorem anc_prefix_isSome (st : HierState) {k x : Nat} {y : Nat}
    (h : anc st k x = some y) {i : Nat} (hi : i ≤ k) : ∃ z, anc st i x = some z := by
  have he : k = (k - i) + i := by omega
  rw [he, anc_add] at h
  cases hz : anc st i x with
  | none => rw [hz] at h; simp at h
  | some z => exact ⟨z, rfl⟩

theorem mem_hkeys_of_parentOf (st : HierState) {z w : Nat}
    (h : parentOf st z = some w) : z ∈ hkeys st := by
  induction st with
  | nil => simp [parentOf, lookupEntry] at h
  | cons e rest ih =>
    rw [hkeys, List.map_cons, List.mem_cons]
    by_cases he : e.1 = z
    · exact Or.inl he.symm
    · right
      apply ih
      rw [parentOf, lookupEntry, if_neg he] at h
      exact h

theorem hitsTarget_iff (st : HierState) (fuel x target : Nat) :
    hitsTarget st fuel x target = true ↔ ∃ k, k < fuel ∧ anc st k x = some target := by
  induction fuel generalizing x with
  | zero =>
    simp only [hitsTarget]
    constructor
    · intro h; cases h
    · rintro ⟨k, hk, _⟩; omega
  | succ fuel ih =>
    by_cases hx : x = target
    · subst hx
      rw [hitsTarget, if_pos rfl]
      constructor
      · intro _
        exact ⟨0, by omega, rfl⟩
      · intro _
        rfl
    · rw [hitsTarget, if_neg hx]
      cases hp : parentOf st x with
      | none =>
        constructor
        · intro h; cases h
        · rintro ⟨k, hk, hkanc⟩
          cases k with
          | zero =>
            simp only [anc, Option.some.injEq] at hkanc
            exact absurd hkanc hx
          | succ k2 =>
            have : anc st (k2 + 1) x = (parentOf st x).bind (anc st k2) := rfl
            rw [this, hp] at hkanc
            simp at hkanc
      | some p =>
        rw [ih p]
        constructor
        · rintro ⟨k, hk, hkanc⟩
          refine ⟨k + 1, by omega, ?_⟩
          have : anc st (k + 1) x = (parentOf st x).bind (anc st k) := rfl
          rw [this, hp]
          simpa using hkanc
        · rintro ⟨k, hk, hkanc⟩
          cases k with
          | zero =>
            simp only [anc, Option.some.injEq] at hkanc
            exact absurd hkanc hx
          | succ k2 =>
            have : anc st (k2 + 1) x = (parentOf st x).bind (anc st k2) := rfl
            rw [this, hp] at hkanc
            simp only [Option.some_bind] at hkanc
            exact ⟨k2, by omega, hkanc⟩

theorem exists_short_chain (st : HierState) {q c : Nat}
    (h : ∃ k, k ≠ 0 ∧ anc st k q = some c) :
    ∃ k, k ≠ 0 ∧ k ≤ st.length ∧ anc st k q = some c := by
  classical
  let k0 := Nat.find h
  obtain ⟨hk0ne, hk0anc⟩ : k0 ≠ 0 ∧ anc st k0 q = some c := Nat.find_spec h
  refine ⟨k0, hk0ne, ?_, hk0anc⟩
  by_contra hgt
  push_neg at hgt
  have hsome : ∀ i, i ≤ k0 → ∃ z, anc st i q = some z :=
    fun i hi => anc_prefix_isSome st hk0anc hi
  have hinj : ∀ i j : Nat, i < j → j < k0 →
      (anc st i q).getD 0 ≠ (anc st j q).getD 0 := by
    intro i j hij hjk heq
    obtain ⟨zi, hzi⟩ := hsome i (by omega)
    obtain ⟨zj, hzj⟩ := hsome j (by omega)
    rw [hzi, hzj] at heq
    simp only [Option.getD_some] at heq
    subst heq
    have hrest : anc st (k0 - j) zi = some c := by
      have he : k0 = (k0 - j) + j := by omega
      rw [he, anc_add, hzj] at hk0anc
      simpa using hk0anc
    have hshort : anc st ((k0 - j) + i) q = some c := by
      rw [anc_add, hzi]
      simpa using hrest
    have hlt : (k0 - j) + i < k0 := by omega
    have hne : (k0 - j) + i ≠ 0 := by omega
    exact Nat.find_min h hlt ⟨hne, hshort⟩
  have hmaps : ∀ i : Nat, i < k0 → (anc st i q).getD 0 ∈ hkeys st := by
    intro i hi
    obtain ⟨zi, hzi⟩ := hsome i (by omega)
    obtain ⟨w, hw⟩ := hsome (i + 1) (by omega)
    have hone : anc st (1 + i) q = (anc st i q).bind (anc st 1) := anc_add st 1 i q
    rw [hzi] at hone
    simp only [Option.some_bind, anc_one] at hone
    rw [show (1 : Nat) + i = i + 1 from by omega, hw] at hone
    have hpz : parentOf st zi = some w := hone.symm
    rw [hzi]
    simpa using mem_hkeys_of_parentOf st hpz
  have hcard : k0 ≤ st.length := by
    have hinj2 : Set.InjOn (fun i : Fin k0 => (anc st i.1 q).getD 0)
        ↑(Finset.univ : Finset (Fin k0)) := by
      intro i _ j _ hij
      by_contra hne
      rcases Nat.lt_or_ge i.1 j.1 with hlt | hge
      · exact hinj i.1 j.1 hlt j.2 hij
      · have hlt2 : j.1 < i.1 := by
          rcases Nat.eq_or_lt_of_le hge with he | hlt2
          · exact absurd (Fin.ext he.symm) hne
          · exact hlt2
        exact hinj j.1 i.1 hlt2 i.2 hij.symm
    have hm2 : ∀ i : Fin k0, i ∈ (Finset.univ : Finset (Fin k0)) →
        (anc st i.1 q).getD 0 ∈ (hkeys st).toFinset := by
      intro i _
      rw [List.mem_toFinset]
      exact hmaps i.1 i.2
    have := Finset.card_le_card_of_injOn _ hm2 hinj2
    rw [Finset.card_univ, Fintype.card_fin] at this
    have hlen : (hkeys st).toFinset.card ≤ (hkeys st).length := List.toFinset_card_le _
    have hkl : (hkeys st).length = st.length := List.length_map _ _
    omega
  omega

theorem anc_eq_of_avoid (st st2 : HierState) (c : Nat)
    (hagree : ∀ x, x ≠ c → parentOf st2 x = parentOf st x) :
    ∀ j q, (∀ i, i < j → anc st2 i q ≠ some c) → anc st2 j q = anc st j q := by
  intro j
  induction j with
  | zero => intro q _; rfl
  | succ j ih =>
    intro q havoid
    have hqc : q ≠ c := by
      intro he
      exact havoid 0 (by omega) (by rw [he]; rfl)
    have hstep2 : anc st2 (j + 1) q = (parentOf st2 q).bind (anc st2 j) := rfl
    have hstep1 : anc st (j + 1) q = (parentOf st q).bind (anc st j) := rfl
    rw [hstep2, hstep1, hagree q hqc]
    cases hp : parentOf st q with
    | none => rfl
    | some p =>
      simp only [Option.some_bind]
      apply ih
      intro i hi
      have : anc st2 (i + 1) q = (parentOf st2 q).bind (anc st2 i) := rfl
      have h2 := havoid (i + 1) (by omega)
      rw [this, hagree q hqc, hp] at h2
      simpa using h2

theorem acyclic_of_redirect (st st2 : HierState) (c : Nat) (hacy : Acyclic st)
    (hagree : ∀ x, x ≠ c → parentOf st2 x = parentOf st x)
    (hc : (∃ q, parentOf st2 c = some q ∧ q ≠ c ∧
            ∀ k, k ≠ 0 → anc st k q ≠ some c) ∨
          parentOf st2 c = Option.none) :
    Acyclic st2 := by
  classical
  intro x k hk hcyc
  by_cases hthrough : ∃ i, i < k ∧ anc st2 i x = some c
  · obtain ⟨i, hik, hic⟩ := hthrough
    have h1 : anc st2 (k - i) c = some x := by
      have he : k = (k - i) + i := by omega
      rw [he, anc_add, hic] at hcyc
      simpa using hcyc
    have h2 : anc st2 k c = some c := by
      have he : k = i + (k - i) := by omega
      rw [he, anc_add, h1]
      simpa using hic
    rcases hc with ⟨q, hcq, hqc, hq⟩ | hcnone
    · cases k with
      | zero => exact hk rfl
      | succ k2 =>
        have hstep : anc st2 (k2 + 1) c = (parentOf st2 c).bind (anc st2 k2) := rfl
        rw [hstep, hcq] at h2
        simp only [Option.some_bind] at h2
        have hex : ∃ j, anc st2 j q = some c := ⟨k2, h2⟩
        let j0 := Nat.find hex
        have hj0 : anc st2 j0 q = some c := Nat.find_spec hex
        have hj0ne : j0 ≠ 0 := by
          intro he
          rw [he] at hj0
          simp only [anc, Option.some.injEq] at hj0
          exact hqc hj0
        have htrans : anc st2 j0 q = anc st j0 q := by
          apply anc_eq_of_avoid st st2 c hagree
          intro i2 hi2
          exact Nat.find_min hex hi2
        rw [htrans] at hj0
        exact hq j0 hj0ne hj0
    · cases k with
      | zero => exact hk rfl
      | succ k2 =>
        have hstep : anc st2 (k2 + 1) c = (parentOf st2 c).bind (anc st2 k2) := rfl
        rw [hstep, hcnone] at h2
        simp at h2
  · push_neg at hthrough
    have := anc_eq_of_avoid st st2 c hagree k x (fun i hi => hthrough i hi)
    rw [this] at hcyc
    exact hacy x k hk hcyc

theorem parentOf_updateParent_ne (st : HierState) (c : Nat) (q : Option Nat) (x : Nat)
    (hx : x ≠ c) : parentOf (updateParent st c q) x = parentOf st x := by
  induction st with
  | nil => rfl
  | cons e rest ih =>
    by_cases he : e.1 = c
    · have hex : ¬ e.1 = x := fun h2 => hx (h2.symm.trans he)
      have hgoal : parentOf (updateParent (e :: rest) c q) x =
          parentOf (updateParent rest c q) x := by
        simp [parentOf, updateParent, lookupEntry, he, hex, Ne.symm hx]
      have hgoal2 : parentOf (e :: rest) x = parentOf rest x := by
        simp [parentOf, lookupEntry, hex]
      rw [hgoal, hgoal2]
      exact ih
    · by_cases hex : e.1 = x
      · simp [parentOf, updateParent, lookupEntry, he, hex, hx]
      · have hgoal : parentOf (updateParent (e :: rest) c q) x =
            parentOf (updateParent rest c q) x := by
          simp [parentOf, updateParent, lookupEntry, he, hex]
        have hgoal2 : parentOf (e :: rest) x = parentOf rest x := by
          simp [parentOf, lookupEntry, hex]
        rw [hgoal, hgoal2]
        exact ih

theorem parentOf_updateParent_self (st : HierState) (c : Nat) (q : Option Nat) :
    parentOf (updateParent st c q) c = q ∨
    parentOf (updateParent st c q) c = Option.none := by
  induction st with
  | nil => right; rfl
  | cons e rest ih =>
    by_cases he : e.1 = c
    · left
      simp [parentOf, updateParent, lookupEntry, he]
    · have hgoal : parentOf (updateParent (e :: rest) c q) c =
          parentOf (updateParent rest c q) c := by
        simp [parentOf, updateParent, lookupEntry, he]
      rw [hgoal]
      exact ih

theorem bfsDesc_sound (st : HierState) (c : Nat) :
    ∀ fuel queue visited,
      (∀ x ∈ queue, ∃ k, k ≠ 0 ∧ anc st k x = some c) →
      (∀ x ∈ visited, ∃ k, k ≠ 0 ∧ anc st k x = some c) →
      ∀ y ∈ bfsDesc st fuel queue visited, ∃ k, k ≠ 0 ∧ anc st k y = some c := by
  intro fuel
  induction fuel with
  | zero =>
    intro queue visited _ hv y hy
    exact hv y (by simpa [bfsDesc] using hy)
  | succ fuel ih =>
    intro queue visited hq hv y hy
    cases queue with
    | nil => exact hv y (by simpa [bfsDesc] using hy)
    | cons x rest =>
      rw [bfsDesc] at hy
      by_cases hvx : visited.contains x = true
      · rw [if_pos hvx] at hy
        exact ih rest visited (fun z hz => hq z (by simp [hz])) hv y hy
      · rw [Bool.not_eq_true] at hvx
        have hvx2 : ¬ (visited.contains x = true) := by rw [hvx]; simp
        rw [if_neg hvx2] at hy
        refine ih (rest ++ children st x) (visited ++ [x]) ?_ ?_ y hy
        · intro z hz
          rcases List.mem_append.mp hz with hz | hz
          · exact hq z (by simp [hz])
          · have hpz : parentOf st z = some x := by
              have := (List.mem_filter.mp hz).2
              simpa using this
            obtain ⟨k, hk0, hkc⟩ := hq x (by simp)
            refine ⟨k + 1, by omega, ?_⟩
            have hstep : anc st (k + 1) z = (parentOf st z).bind (anc st k) := rfl
            rw [hstep, hpz]
            simpa using hkc
        · intro z hz
          rcases List.mem_append.mp hz with hz | hz
          · exact hv z hz
          · have hzx : z = x := by simpa using hz
            subst hzx
            exact hq z (by simp)

theorem listDescendants_reach (st : HierState) (c y : Nat)
    (hy : y ∈ listDescendants st c) : ∃ k, k ≠ 0 ∧ anc st k y = some c := by
  refine bfsDesc_sound st c _ (children st c) [] ?_ (by simp) y hy
  intro z hz
  have hpz : parentOf st z = some c := by
    have := (List.mem_filter.mp hz).2
    simpa using this
  exact ⟨1, by omega, by rw [anc_one]; exact hpz⟩

theorem acyclic_not_self_descendant (st : HierState) (hacy : Acyclic st) (x : Nat) :
    x ∉ listDescendants st x := by
  intro hx
  obtain ⟨k, hk, hkx⟩ := listDescendants_reach st x x hx
  exact hacy x k hk hkx

/-- Claim C6 (spec-modelled): `setParent(C, C.id)` fails with `SelfNestingError`;
`setParent(C, p)` fails with `CycleError` whenever `p` is a descendant of `C`;
every failure leaves the hierarchy completely unmodified; and from any acyclic
state every `setParent` call leaves the hierarchy acyclic, so no collection ever
appears among its own descendants in any reachable state. -/
theorem setParent_preserves_acyclic_hierarchy (st : HierState) (c : Nat)
    (p : Option Nat) (hacy : Acyclic st) :
    setParentRun st c (some c) = (st, some HierarchyError.selfNesting) ∧
    (∀ q, p = some q → q ∈ listDescendants st c →
      setParentRun st c p = (st, some HierarchyError.cycle)) ∧
    (∀ st2 e, setParentRun st c p = (st2, some e) → st2 = st) ∧
    Acyclic (setParentRun st c p).1 ∧
    (∀ x, x ∉ listDescendants (setParentRun st c p).1 x) := by
  have hnoreach : ∀ q : Nat, q ≠ c → hitsTarget st (st.length + 1) q c = false →
      ∀ k, k ≠ 0 → anc st k q ≠ some c := by
    intro q _ hfalse k hk hkanc
    obtain ⟨k2, hk2ne, hk2le, hk2anc⟩ := exists_short_chain st ⟨k, hk, hkanc⟩
    have : hitsTarget st (st.length + 1) q c = true :=
      (hitsTarget_iff st (st.length + 1) q c).mpr ⟨k2, by omega, hk2anc⟩
    rw [hfalse] at this
    cases this
  have hresult : Acyclic (setParentRun st c p).1 := by
    rcases p with _ | q
    · refine acyclic_of_redirect st (updateParent st c Option.none) c hacy
        (fun x hx => parentOf_updateParent_ne st c Option.none x hx) ?_
      rcases parentOf_updateParent_self st c Option.none with h | h
      · exact Or.inr h
      · exact Or.inr h
    · by_cases hqc : q = c
      · simpa [setParentRun, hqc] using hacy
      · by_cases hhits : hitsTarget st (st.length + 1) q c = true
        · simpa [setParentRun, hqc, hhits] using hacy
        · rw [Bool.not_eq_true] at hhits
          have hres : (setParentRun st c (some q)).1 = updateParent st c (some q) := by
            simp [setParentRun, hqc, hhits]
          rw [hres]
          refine acyclic_of_redirect st (updateParent st c (some q)) c hacy
            (fun x hx => parentOf_updateParent_ne st c (some q) x hx) ?_
          rcases parentOf_updateParent_self st c (some q) with h | h
          · exact Or.inl ⟨q, h, hqc, hnoreach q hqc hhits⟩
          · exact Or.inr h
  refine ⟨?_, ?_, ?_, hresult, fun x => acyclic_not_self_descendant _ hresult x⟩
  · simp [setParentRun]
  · rintro q rfl hdesc
    obtain ⟨k, hk, hkanc⟩ := listDescendants_reach st c q hdesc
    have hqc : q ≠ c := by
      intro he
      exact hacy q k hk (by rw [he] at hkanc ⊢; exact hkanc)
    obtain ⟨k2, hk2ne, hk2le, hk2anc⟩ := exists_short_chain st ⟨k, hk, hkanc⟩
    have hhits : hitsTarget st (st.length + 1) q c = true :=
      (hitsTarget_iff st (st.length + 1) q c).mpr ⟨k2, by omega, hk2anc⟩
    simp [setParentRun, hqc, hhits]
  · intro st2 e hrun
    rcases p with _ | q
    · simp [setParentRun] at hrun
    · by_cases hqc : q = c
      · simp [setParentRun, hqc] at hrun
        exact hrun.1.symm
      · by_cases hhits : hitsTarget st (st.length + 1) q c = true
        · simp [setParentRun, hqc, hhits] at hrun
          exact hrun.1.symm
        · rw [Bool.not_eq_true] at hhits
          simp [setParentRun, hqc, hhits] at hrun

/-- A concrete two-collection hierarchy: collection 2 is a child of root collection 1. -/
def exSt : HierState := [(1, Option.none), (2, some 1)]

theorem exSt_parentOf (x : Nat) : parentOf exSt x = if x = 2 then some 1 else Option.none := by
  by_cases h2 : x = 2
  · subst h2
    rfl
  · rw [if_neg h2]
    by_cases h1 : x = 1
    · subst h1
      rfl
    · have h1b : ¬ ((1 : Nat) = x) := fun h => h1 h.symm
      have h2b : ¬ ((2 : Nat) = x) := fun h => h2 h.symm
      simp [exSt, parentOf, lookupEntry, h1b, h2b]

theorem exSt_acyclic : Acyclic exSt := by
  intro x k hk hcyc
  cases k with
  | zero => exact hk rfl
  | succ k2 =>
    have hstep : anc exSt (k2 + 1) x = (parentOf exSt x).bind (anc exSt k2) := rfl
    by_cases h2 : x = 2
    · subst h2
      rw [hstep, show parentOf exSt 2 = some 1 from rfl] at hcyc
      simp only [Option.some_bind] at hcyc
      cases k2 with
      | zero => simp [anc] at hcyc
      | succ k3 =>
        have hstep2 : anc exSt (k3 + 1) 1 = (parentOf exSt 1).bind (anc exSt k3) := rfl
        rw [hstep2, show parentOf exSt 1 = Option.none from rfl] at hcyc
        simp at hcyc
    · rw [hstep, exSt_parentOf, if_neg h2] at hcyc
      simp at hcyc

/-- Witness for C6 at a concrete input: reparenting collection 1 under its own
descendant 2 fails with `CycleError` and leaves the hierarchy untouched. -/
theorem setParent_preserves_acyclic_hierarchy_witness :
    (2 ∈ listDescendants exSt 1) ∧
    setParentRun exSt 1 (some 2) = (exSt, some HierarchyError.cycle) :=
  ⟨by decide,
    (setParent_preserves_acyclic_hierarchy exSt 1 (some 2) exSt_acyclic).2.1
      2 rfl (by decide)⟩

end DocTracker

